import Mathlib

/-!
Shallow embedding of the layer-melting core of go-docker-melt
(src/go_docker_melt.go).  Pure data is modelled directly; filesystem
state is modelled as the set of layer keys whose directories still
exist; external collaborators (the JSON decoder, the tar packer's
SHA-256 digest, the rsync process) enter as function parameters or as
their documented effect on names.  Machine integers do not overflow in
the modelled fragments (indices and counts), so Nat is used throughout.
-/

/-! ## Data model: history entries and list surgery -/

/-- History entry of an image config (struct History in the source).
Only the fields the engine reads are carried; empty_layer drives the
history-reconciliation cursor. -/
structure History where
  created : String
  author : String
  createdBy : String
  comment : String
  emptyLayer : Bool
deriving DecidableEq, Repr

/-- Number of history entries whose empty_layer flag is false. -/
def countNonEmpty (l : List History) : Nat :=
  l.countP (fun h => !h.emptyLayer)

/-- The subsequence of history entries whose empty_layer flag is true. -/
def emptiesOf (l : List History) : List History :=
  l.filter (fun h => h.emptyLayer)

/-- Go `append(l[:pos], l[pos+1:]...)` as used by delHistoryElem,
delRootfsElem and delLayerElem.  For pos < l.length this removes the
element at pos; the source only ever calls it in bounds (Go would
panic on an out-of-range slice). -/
def delElem {α : Type} (l : List α) (pos : Nat) : List α :=
  l.take pos ++ l.drop (pos + 1)

/-! ## Sharing analyzer (the allLayers map)

The Go map[string]int is embedded as an association list with unique
keys; a missing key reads as Go's zero value 0 via lookupD. -/

def lookupL (m : List (String × Nat)) (k : String) : Option Nat :=
  (m.find? (fun p => p.1 == k)).map (fun p => p.2)

/-- Go map read `m[k]`: zero value 0 when the key is absent. -/
def lookupD (m : List (String × Nat)) (k : String) : Nat :=
  (lookupL m k).getD 0

/-- Go map write `m[k] = v` for a key already present. -/
def updateL (m : List (String × Nat)) (k : String) (v : Nat) : List (String × Nat) :=
  m.map (fun p => if p.1 == k then (k, v) else p)

/-- One step of the seeding pass (main, allLayers loop): first
occurrence inserts 0; a later occurrence upgrades 0 to 1; 1 stays. -/
def seedLayer (m : List (String × Nat)) (lay : String) : List (String × Nat) :=
  match lookupL m lay with
  | none => (lay, 0) :: m
  | some 0 => updateL m lay 1
  | some _ => m

def seedList (m : List (String × Nat)) (l : List String) : List (String × Nat) :=
  l.foldl seedLayer m

/-- The allLayers map after the seeding pass over every image's layer
list, in manifest order. -/
def seedAll (images : List (List String)) : List (String × Nat) :=
  images.foldl seedList []

/-- The (prev, cur) pairs visited by `for i := 1; i < len(layers); i++`. -/
def adjPairs (l : List String) : List (String × String) :=
  l.zip l.tail

/-- One step of the sharing-boundary pass: if cur reads 0 and prev
reads 1, increment prev (to 2). -/
def boundaryStep (m : List (String × Nat)) (pc : String × String) : List (String × Nat) :=
  if lookupD m pc.2 = 0 ∧ lookupD m pc.1 = 1 then
    updateL m pc.1 (lookupD m pc.1 + 1)
  else m

def boundaryList (m : List (String × Nat)) (l : List String) : List (String × Nat) :=
  (adjPairs l).foldl boundaryStep m

def boundaryAll (m : List (String × Nat)) (images : List (List String)) : List (String × Nat) :=
  images.foldl boundaryList m

/-- The allLayers map as the sharing analyzer leaves it: seeding pass,
then—only when the manifest has more than one image entry—the
boundary pass. -/
def analyze (images : List (List String)) : List (String × Nat) :=
  if 1 < images.length then boundaryAll (seedAll images) images else seedAll images

/-- Total number of occurrences of key k across all images' layer
lists (counting repeats inside a single list). -/
def occCount (images : List (List String)) (k : String) : Nat :=
  (images.map (fun l => l.count k)).sum

/-- Number of images whose layer list contains k. -/
def imagesContaining (images : List (List String)) (k : String) : Nat :=
  images.countP (fun l => l.contains k)

/-- Some image has an adjacent pair (k, c) whose second component reads
0 in the map m. -/
def boundaryWitness (images : List (List String)) (m : List (String × Nat)) (k : String) : Prop :=
  ∃ p ∈ images.flatMap adjPairs, p.1 = k ∧ lookupD m p.2 = 0

instance (images : List (List String)) (m : List (String × Nat)) (k : String) :
    Decidable (boundaryWitness images m k) := by
  unfold boundaryWitness; infer_instance

/-! ## Layer fusion engine -/

/-- The three parallel vectors of one image entry: manifest layer list,
rootfs diff_ids, config history. -/
structure MeltImage where
  layers : List String
  diffIds : List String
  history : List History
deriving DecidableEq, Repr

/-- Loop state of the per-image fusion loop, plus ghost trace fields:
disk is the set of layer keys whose layer directory still exists;
roots records every layer chosen as rootLayer; melts records every
(melted layer, rootLayer at that time) pair. -/
structure MeltSt where
  layers : List String
  diffIds : List String
  history : List History
  j : Nat
  hist : Nat
  rootLayer : String
  disk : List String
  roots : List String
  melts : List (String × String)
deriving DecidableEq, Repr

inductive IterRes where
  | done : MeltSt → IterRes
  | next : MeltSt → IterRes
  | fault : IterRes
deriving DecidableEq, Repr

/-- Go `s[:len(s)-4]` (strip ".tar"); layer keys are ASCII so byte and
character slicing agree. -/
def trimTar (s : String) : String :=
  String.mk (s.toList.take (s.toList.length - 4))

/-- The history cursor skip `for ; history[hist].EmptyLayer; hist++`.
The source indexes without a bounds check; running past the end of the
list is a Go panic, modelled as none. -/
def skipEmptyAux : List History → Nat → Option Nat
  | [], _ => none
  | h :: t, i => if h.emptyLayer then skipEmptyAux t (i + 1) else some i

def skipEmpty (hs : List History) (i : Nat) : Option Nat :=
  skipEmptyAux (hs.drop i) i

/-- Successor state of a root-selection iteration: rootLayer is set to
the layer key with ".tar" stripped and both indices advance. -/
def rootStep (s : MeltSt) (layer : String) : MeltSt :=
  { s with
    j := s.j + 1
    hist := s.hist + 1
    rootLayer := trimTar layer
    roots := s.roots ++ [layer] }

/-- Successor state of a melt iteration, given the skip position h2 of
the history cursor. -/
def meltStep (m : List (String × Nat)) (s : MeltSt) (layer : String) (h2 : Nat) : MeltSt :=
  { s with
    layers := delElem s.layers s.j
    diffIds := delElem s.diffIds s.j
    history := delElem s.history h2
    hist := h2
    rootLayer := if lookupD m layer = 2 then "" else s.rootLayer
    disk := s.disk.erase layer
    melts := s.melts ++ [(layer, s.rootLayer)] }

/-- One iteration of the fusion loop body (main, lines 486-547).
Either selects a root layer (advancing j and hist), or melts the
current layer into rootLayer: the layer directory is consumed if still
present, rootLayer is reset when the layer reads 2, the history cursor
skips empty entries, and the history/diff-id/layer vectors collapse in
lockstep (the j-1/hist-1 steps of the source cancel against the loop
increment, so j stays and hist lands on the skip position). -/
def fusionIter (m : List (String × Nat)) (s : MeltSt) : IterRes :=
  match s.layers.get? s.j with
  | none => .done s
  | some layer =>
    if s.rootLayer = "" ∧ lookupD m layer ≠ 2 then
      .next (rootStep s layer)
    else
      match skipEmpty s.history s.hist with
      | none => .fault
      | some h2 => .next (meltStep m s layer h2)

/-- The fusion loop, fuel-indexed (each iteration either ends the loop
or strictly decreases layers.length - j, so layers.length + 1 fuel
always suffices from j = 0). -/
def fusionLoopF (m : List (String × Nat)) : Nat → MeltSt → Option MeltSt
  | 0, _ => none
  | fuel + 1, s =>
    match fusionIter m s with
    | .done s2 => some s2
    | .fault => none
    | .next s2 => fusionLoopF m fuel s2

def initSt (img : MeltImage) (disk : List String) : MeltSt :=
  ⟨img.layers, img.diffIds, img.history, 0, 0, "", disk, [], []⟩

/-- Run the fusion loop on one image, starting from the given disk
state. -/
def runImage (m : List (String × Nat)) (img : MeltImage) (disk : List String) : Option MeltSt :=
  fusionLoopF m (img.layers.length + 1) (initSt img disk)

/-- Run the fusion loop over every image in manifest order, threading
the disk state and accumulating the ghost traces. -/
def runAll (m : List (String × Nat)) :
    List MeltImage → List String →
    Option (List MeltImage × List String × List String × List (String × String))
  | [], disk => some ([], disk, [], [])
  | img :: rest, disk =>
    match runImage m img disk with
    | none => none
    | some s =>
      match runAll m rest s.disk with
      | none => none
      | some (imgs, disk2, roots, melts) =>
        some (⟨s.layers, s.diffIds, s.history⟩ :: imgs, disk2, s.roots ++ roots, s.melts ++ melts)

/-- The whole fusion phase: analyze the layer lists, start with every
distinct layer's directory on disk (the extract phase created them),
then melt image by image. -/
def meltImages (images : List MeltImage) :
    Option (List MeltImage × List String × List String × List (String × String)) :=
  let m := analyze (images.map MeltImage.layers)
  runAll m images (m.map Prod.fst)

/-! ## Whiteout handling during a melt

rsyncLayer runs rsync with --exclude=.wh.* (a shell glob matched
against every path component), so the copy filter is "the name starts
with .wh."; removeWhiteouts then matches each non-directory entry name
against the compiled regular expression and removes the entity named
by the name with its first 4 bytes stripped. -/

def listIsPre {α : Type} [DecidableEq α] : List α → List α → Bool
  | [], _ => true
  | _ :: _, [] => false
  | a :: ps, b :: bs => decide (a = b) && listIsPre ps bs

/-- Effect of rsync's --exclude=.wh.* on a name: fnmatch of the glob
".wh.*", i.e. the name starts with ".wh." (the star also matches the
empty remainder). -/
def rsyncExcluded (name : String) : Bool :=
  listIsPre (".wh.").toList name.toList

/-- MatchString of the anchored regular expression compiled in main:
the name starts with ".wh." and its fifth character exists and is
alphanumeric (POSIX alnum is the ASCII range Char.isAlphanum tests). -/
def whRegexMatch (name : String) : Bool :=
  listIsPre (".wh.").toList name.toList &&
    ((name.toList.drop 4).headD ' ').isAlphanum

/-- The names the rsync copy lets through to the destination. -/
def copiedNames (names : List String) : List String :=
  names.filter (fun n => !rsyncExcluded n)

/-- Go `cur[4:]`: the destination entity removeWhiteouts removes
(recursively, via os.RemoveAll) for a matching name. -/
def whTarget (name : String) : String := String.mk (name.toList.drop 4)

/-- Targets removed by the removeWhiteouts walk over a directory's
(non-directory) entry names. -/
def removedTargets (names : List String) : List String :=
  (names.filter whRegexMatch).map whTarget

/-! ## Flush operations: byte-level raw-slice substitution

updateHistory, updateRootfs and updateLayers all do
`raw = bytes.Replace(raw, rawSlice, repl, 1)` where repl is the
json.Marshal image of the mutated value (taken as input here, the
encoder being external).  The only error path in the source is the
encoder itself, so the substitution step always succeeds. -/

/-- First index at which pat occurs in s (Go bytes.Index). -/
def patIndex? {α : Type} [DecidableEq α] : List α → List α → Option Nat
  | [], pat => if listIsPre pat ([] : List α) then some 0 else none
  | a :: t, pat =>
    if listIsPre pat (a :: t) then some 0
    else (patIndex? t pat).map (fun n => n + 1)

/-- Go bytes.Replace(s, old, new, 1): replace the first occurrence of
old, if any; otherwise return s unchanged. -/
def bytesReplace1 (s old new : List Nat) : List Nat :=
  match patIndex? s old with
  | none => s
  | some i => s.take i ++ new ++ s.drop (i + old.length)

/-- Number of positions of s at which pat occurs. -/
def occurrences (s pat : List Nat) : Nat :=
  (List.range (s.length + 1)).countP (fun i => listIsPre pat (s.drop i))

/-- ImageConfig.updateHistory: substitute the marshalled history for
the captured raw history slice inside the retained config bytes. -/
def updateHistory (rawJSON rawHist repl : List Nat) : Except String (List Nat) :=
  Except.ok (bytesReplace1 rawJSON rawHist repl)

/-- ImageConfig.updateRootfs. -/
def updateRootfs (rawJSON rawRfs repl : List Nat) : Except String (List Nat) :=
  Except.ok (bytesReplace1 rawJSON rawRfs repl)

/-- RawManifest.updateLayers. -/
def updateLayers (rawJSON rawLayers repl : List Nat) : Except String (List Nat) :=
  Except.ok (bytesReplace1 rawJSON rawLayers repl)

/-! ## Loading: ImageConfig.UnmarshalJSON and RawManifest.UnmarshalJSON

The JSON decoder (encoding/json) is external and passed as a
parameter; the embedded functions reproduce the source's control flow:
a zero-size file returns success immediately, a decoded config whose
history or rootfs raw slice is nil (or whose second decode yields nil)
is rejected as corrupt, and a manifest entry whose Layers raw slice is
nil is rejected as corrupt. -/

/-- rootfs object of an image config. -/
structure Rootfs where
  type : String
  diffIds : List String
deriving DecidableEq, Repr

/-- The two raw slices the outer decode captures from a config blob. -/
structure ConfigRawFields where
  rawHistory : Option (List Nat)
  rawRootfs : Option (List Nat)

/-- ImageConfig.UnmarshalJSON on the bytes of a config file. Result
`ok none` is the zero-size early return (nothing loaded, no error). -/
def unmarshalImageConfig
    (buf : List Nat)
    (decodeTop : List Nat → Except String ConfigRawFields)
    (decodeHistory : List Nat → Except String (Option (List History)))
    (decodeRootfs : List Nat → Except String (Option Rootfs)) :
    Except String (Option (List History × Rootfs)) :=
  if buf.length = 0 then Except.ok none
  else
    match decodeTop buf with
    | Except.error e => Except.error e
    | Except.ok fields =>
      match fields.rawHistory, fields.rawRootfs with
      | some rh, some rr =>
        match decodeHistory rh with
        | Except.error e => Except.error e
        | Except.ok hOpt =>
          match decodeRootfs rr with
          | Except.error e => Except.error e
          | Except.ok rOpt =>
            match hOpt, rOpt with
            | some h, some r => Except.ok (some (h, r))
            | _, _ => Except.error "Corrupt image configuration."
      | _, _ => Except.error "Corrupt image configuration."

/-- The per-entry loop of RawManifest.UnmarshalJSON: an entry whose
Layers raw slice is nil is corrupt; otherwise its layer list is
decoded. -/
def decodeEntries (decodeLayers : List Nat → Except String (List String)) :
    List (Option (List Nat)) → Except String (List (List String))
  | [] => Except.ok []
  | none :: _ => Except.error "Corrupt manifest file."
  | some raw :: t =>
    match decodeLayers raw with
    | Except.error e => Except.error e
    | Except.ok ls =>
      match decodeEntries decodeLayers t with
      | Except.error e => Except.error e
      | Except.ok rest => Except.ok (ls :: rest)

/-- RawManifest.UnmarshalJSON on the bytes of manifest.json, where
decodeTop yields each entry's captured Layers raw slice (nil when the
field is missing). -/
def unmarshalManifest
    (buf : List Nat)
    (decodeTop : List Nat → Except String (List (Option (List Nat))))
    (decodeLayers : List Nat → Except String (List String)) :
    Except String (Option (List (List String))) :=
  if buf.length = 0 then Except.ok none
  else
    match decodeTop buf with
    | Except.error e => Except.error e
    | Except.ok rawEntries =>
      match decodeEntries decodeLayers rawEntries with
      | Except.error e => Except.error e
      | Except.ok entries => Except.ok (some entries)

/-! ## Content addressor: repack-with-hash and diff-id writeback -/

/-- Lowercase hexadecimal digit (hex.EncodeToString's table). -/
def hexDigit (n : Nat) : Char :=
  if n < 10 then Char.ofNat (48 + n) else Char.ofNat (87 + n)

/-- One byte as two lowercase hex characters, high nibble first. -/
def hexByte (b : Nat) : List Char := [hexDigit (b / 16 % 16), hexDigit (b % 16)]

/-- hex.EncodeToString over a byte sequence. -/
def hexEncode (bs : List Nat) : String := String.mk (bs.flatMap hexByte)

/-- Go map read with string zero value "". -/
def lookupS (t : List (String × String)) (k : String) : String :=
  ((t.find? (fun p => p.1 == k)).map (fun p => p.2)).getD ""

/-- The shared diffID table the repack workers fill: for every key of
allLayers whose layer archive still exists on disk, record
"sha256:" + hex(SHA-256 of the repacked archive).  The digest function
(tarski.CreateSHA256) is external and passed as a parameter. -/
def repackTable (hash : String → List Nat) (disk keys : List String) :
    List (String × String) :=
  keys.filterMap (fun k =>
    if k ∈ disk then some (k, "sha256:" ++ hexEncode (hash k)) else none)

/-- The diff-id writeback loop: DiffIds[j] = diffID[layers[j]] for
every j below the layer-list length (entries of diffIds beyond the
layer list are untouched; the source would panic if diffIds were
shorter, which vector parity rules out). -/
def writebackDiffIds (table : List (String × String)) (layers diffIds : List String) :
    List String :=
  diffIds.enum.map (fun p =>
    match layers.get? p.1 with
    | some l => lookupS table l
    | none => p.2)

/-! ## Early exits (nothing to do) -/

inductive EarlyOutcome where
  /-- os.Exit(0) taken before any output archive is written. -/
  | nothingToDo : EarlyOutcome
  /-- The run continues towards producing the output archive. -/
  | proceed : EarlyOutcome
deriving DecidableEq, Repr

/-- The two nothing-to-do gates of main: total layer count at most 1;
or more than one image entry and no seeded value 0 (all layers
shared). -/
def earlyDecision (images : List (List String)) : EarlyOutcome :=
  if (images.map List.length).sum ≤ 1 then .nothingToDo
  else if 1 < images.length ∧ (seedAll images).countP (fun p => p.2 == 0) = 0 then .nothingToDo
  else .proceed

/-! ## Lemmas: association-list map operations -/

theorem lookupL_nil (k : String) : lookupL [] k = none := rfl

theorem lookupL_cons (k0 k : String) (v : Nat) (m : List (String × Nat)) :
    lookupL ((k0, v) :: m) k = if k0 = k then some v else lookupL m k := by
  by_cases h : k0 = k
  · subst h
    simp [lookupL, List.find?_cons_of_pos]
  · simp [lookupL, List.find?_cons_of_neg, h]

theorem lookupL_updateL (m : List (String × Nat)) (k k2 : String) (v : Nat) :
    lookupL (updateL m k v) k2 =
      if k2 = k then (lookupL m k).map (fun _ => v) else lookupL m k2 := by
  induction m with
  | nil => by_cases h : k2 = k <;> simp [lookupL, updateL, h]
  | cons p t ih =>
    obtain ⟨k0, v0⟩ := p
    by_cases h0 : k0 = k
    · subst h0
      have hu : updateL ((k0, v0) :: t) k0 v = (k0, v) :: updateL t k0 v := by
        simp [updateL]
      rw [hu]
      simp only [lookupL_cons, ih]
      by_cases h2 : k2 = k0
      · subst h2; simp
      · have h2s : ¬ k0 = k2 := fun hh => h2 hh.symm
        simp [h2, h2s]
    · have hu : updateL ((k0, v0) :: t) k v = (k0, v0) :: updateL t k v := by
        simp [updateL, h0]
      rw [hu]
      simp only [lookupL_cons, ih]
      by_cases h2 : k2 = k
      · subst h2
        have h0s : ¬ k0 = k2 := h0
        simp [h0s]
      · by_cases h3 : k0 = k2 <;> simp [h3, h2]

theorem lookupD_eq_one_iff (m : List (String × Nat)) (k : String) :
    lookupD m k = 1 ↔ lookupL m k = some 1 := by
  unfold lookupD
  cases h : lookupL m k <;> simp

theorem lookupD_eq_zero_iff (m : List (String × Nat)) (k : String) :
    lookupD m k = 0 ↔ (lookupL m k = none ∨ lookupL m k = some 0) := by
  unfold lookupD
  cases h : lookupL m k <;> simp

/-! ## Lemmas: the seeding pass -/

/-- Transfer function of the seeding pass: starting value paired with
the number of occurrences still to be folded in. -/
def seedTrans : Option Nat → Nat → Option Nat
  | o, 0 => o
  | none, 1 => some 0
  | none, _ + 2 => some 1
  | some 0, _ + 1 => some 1
  | some (v + 1), _ + 1 => some (v + 1)

theorem seedLayer_lookup_other (m : List (String × Nat)) (a k : String) (h : a ≠ k) :
    lookupL (seedLayer m a) k = lookupL m k := by
  have h2 : ¬ k = a := fun hh => h hh.symm
  cases hl : lookupL m a with
  | none => simp [seedLayer, hl, lookupL_cons, h]
  | some v =>
    cases v with
    | zero => simp [seedLayer, hl, lookupL_updateL, h2]
    | succ v => simp [seedLayer, hl]

theorem seedLayer_lookup_self (m : List (String × Nat)) (a : String) :
    lookupL (seedLayer m a) a =
      match lookupL m a with
      | none => some 0
      | some 0 => some 1
      | some (v + 1) => some (v + 1) := by
  cases hl : lookupL m a with
  | none => simp [seedLayer, hl, lookupL_cons]
  | some v =>
    cases v with
    | zero => simp [seedLayer, hl, lookupL_updateL]
    | succ v => simp [seedLayer, hl]

theorem seed_foldl (l : List String) :
    ∀ (m : List (String × Nat)) (k : String),
      lookupL (l.foldl seedLayer m) k = seedTrans (lookupL m k) (l.count k) := by
  induction l with
  | nil => intro m k; simp [seedTrans]
  | cons a t ih =>
    intro m k
    rw [List.foldl_cons, ih, List.count_cons]
    by_cases h : a = k
    · subst h
      simp only [beq_self_eq_true, if_true]
      rw [seedLayer_lookup_self]
      cases hl : lookupL m a with
      | none =>
        cases hc : t.count a with
        | zero => simp [seedTrans]
        | succ c => cases c <;> simp [seedTrans]
      | some v =>
        cases v with
        | zero => cases hc : t.count a <;> simp [seedTrans]
        | succ v => cases hc : t.count a <;> simp [seedTrans]
    · rw [seedLayer_lookup_other m a k h]
      simp [h]

theorem seedAll_eq_flatten (images : List (List String)) :
    seedAll images = (images.flatten).foldl seedLayer [] := by
  rw [seedAll, List.foldl_flatten]
  rfl

theorem count_flatten_eq_occCount (images : List (List String)) (k : String) :
    (images.flatten).count k = occCount images k := by
  induction images with
  | nil => rfl
  | cons l t ih =>
    simp only [List.flatten_cons, List.count_append, occCount, List.map_cons, List.sum_cons]
    rw [ih]
    rfl

theorem seedAll_lookup (images : List (List String)) (k : String) :
    lookupL (seedAll images) k = seedTrans none (occCount images k) := by
  rw [seedAll_eq_flatten, seed_foldl, lookupL_nil, count_flatten_eq_occCount]

theorem seedAll_lookup_zero (images : List (List String)) (k : String) :
    lookupL (seedAll images) k = some 0 ↔ occCount images k = 1 := by
  rw [seedAll_lookup]
  cases hc : occCount images k with
  | zero => simp [seedTrans]
  | succ c => cases c <;> simp [seedTrans]

theorem seedAll_lookup_one (images : List (List String)) (k : String) :
    lookupL (seedAll images) k = some 1 ↔ 2 ≤ occCount images k := by
  rw [seedAll_lookup]
  cases hc : occCount images k with
  | zero => simp [seedTrans]
  | succ c => cases c <;> simp [seedTrans]

theorem seedAll_values (images : List (List String)) (k : String) (v : Nat)
    (h : lookupL (seedAll images) k = some v) : v = 0 ∨ v = 1 := by
  rw [seedAll_lookup] at h
  cases hc : occCount images k with
  | zero => rw [hc] at h; simp [seedTrans] at h
  | succ c =>
    rw [hc] at h
    cases c <;> simp [seedTrans] at h <;> omega

/-! ## Lemmas: the sharing-boundary pass -/

theorem lookupL_boundaryStep (m : List (String × Nat)) (q : String × String) (x : String) :
    lookupL (boundaryStep m q) x =
      if lookupD m q.2 = 0 ∧ lookupD m q.1 = 1 ∧ x = q.1 then some 2
      else lookupL m x := by
  unfold boundaryStep
  by_cases g : lookupD m q.2 = 0 ∧ lookupD m q.1 = 1
  · rw [if_pos g, lookupL_updateL]
    have h1 : lookupL m q.1 = some 1 := (lookupD_eq_one_iff m q.1).mp g.2
    by_cases hx : x = q.1
    · rw [if_pos hx, if_pos ⟨g.1, g.2, hx⟩, h1]
      simp [g.2]
    · rw [if_neg hx, if_neg (by tauto)]
  · rw [if_neg g, if_neg (by tauto)]

theorem boundaryStep_zero (m : List (String × Nat)) (q : String × String) (x : String) :
    lookupD (boundaryStep m q) x = 0 ↔ lookupD m x = 0 := by
  by_cases h : lookupD m q.2 = 0 ∧ lookupD m q.1 = 1 ∧ x = q.1
  · obtain ⟨h0, h1, hx⟩ := h
    have hl : lookupL (boundaryStep m q) x = some 2 := by
      rw [lookupL_boundaryStep, if_pos ⟨h0, h1, hx⟩]
    constructor
    · intro hz; rw [lookupD, hl] at hz; simp at hz
    · intro hz; rw [hx] at hz; omega
  · have hl : lookupL (boundaryStep m q) x = lookupL m x := by
      rw [lookupL_boundaryStep, if_neg h]
    rw [lookupD, lookupD, hl]

theorem boundaryFold_zero (ps : List (String × String)) :
    ∀ (m : List (String × Nat)) (x : String),
      lookupD (ps.foldl boundaryStep m) x = 0 ↔ lookupD m x = 0 := by
  induction ps with
  | nil => intro m x; exact Iff.rfl
  | cons q t ih => intro m x; rw [List.foldl_cons, ih, boundaryStep_zero]

/-- In the boundary pass the map only ever moves from the seeded value
1 to the value 2; everything else is untouched. -/
def bndRel (seed m : List (String × Nat)) : Prop :=
  ∀ k, lookupL m k = lookupL seed k ∨ (lookupL seed k = some 1 ∧ lookupL m k = some 2)

theorem bndRel_refl (seed : List (String × Nat)) : bndRel seed seed :=
  fun _ => Or.inl rfl

theorem bndRel_step (seed m : List (String × Nat)) (q : String × String)
    (h : bndRel seed m) : bndRel seed (boundaryStep m q) := by
  intro k
  rw [lookupL_boundaryStep]
  by_cases g : lookupD m q.2 = 0 ∧ lookupD m q.1 = 1 ∧ k = q.1
  · rw [if_pos g]
    obtain ⟨-, h1, hk⟩ := g
    right
    have hm : lookupL m k = some 1 := by
      rw [hk]; exact (lookupD_eq_one_iff m q.1).mp h1
    rcases h k with he | ⟨hs, h2⟩
    · exact ⟨he.symm.trans hm, rfl⟩
    · have hc := hm.symm.trans h2
      simp at hc
  · rw [if_neg g]; exact h k

theorem bndRel_foldl (seed : List (String × Nat)) (ps : List (String × String)) :
    ∀ m, bndRel seed m → bndRel seed (ps.foldl boundaryStep m) := by
  induction ps with
  | nil => intro m h; exact h
  | cons q t ih => intro m h; exact ih _ (bndRel_step seed m q h)

theorem boundaryAll_eq_foldl (images : List (List String)) :
    ∀ m, boundaryAll m images = (images.flatMap adjPairs).foldl boundaryStep m := by
  induction images with
  | nil => intro m; rfl
  | cons l t ih =>
    intro m
    show t.foldl boundaryList (boundaryList m l) = _
    rw [List.flatMap_cons, List.foldl_append]
    exact ih (boundaryList m l)

theorem boundaryFold_two_iff (k : String) (ps : List (String × String)) :
    ∀ m : List (String × Nat),
      (lookupL (ps.foldl boundaryStep m) k = some 2 ↔
        lookupL m k = some 2 ∨
          (lookupL m k = some 1 ∧ ∃ p ∈ ps, p.1 = k ∧ lookupD m p.2 = 0)) := by
  induction ps with
  | nil => intro m; simp
  | cons q t ih =>
    intro m
    rw [List.foldl_cons, ih]
    by_cases g : lookupD m q.2 = 0 ∧ lookupD m q.1 = 1
    · by_cases hk : q.1 = k
      · subst hk
        have hm1 : lookupL m q.1 = some 1 := (lookupD_eq_one_iff m q.1).mp g.2
        have hstep : lookupL (boundaryStep m q) q.1 = some 2 := by
          rw [lookupL_boundaryStep, if_pos ⟨g.1, g.2, rfl⟩]
        constructor
        · intro _
          exact Or.inr ⟨hm1, q, List.mem_cons_self _ _, rfl, g.1⟩
        · intro _
          exact Or.inl hstep
      · have hstep : lookupL (boundaryStep m q) k = lookupL m k := by
          rw [lookupL_boundaryStep, if_neg (by tauto)]
        have hz : ∀ x, lookupD (boundaryStep m q) x = 0 ↔ lookupD m x = 0 :=
          boundaryStep_zero m q
        rw [hstep]
        constructor
        · rintro (h2 | ⟨h1, p, hp, hpk, hp0⟩)
          · exact Or.inl h2
          · exact Or.inr ⟨h1, p, List.mem_cons_of_mem _ hp, hpk, (hz p.2).mp hp0⟩
        · rintro (h2 | ⟨h1, p, hp, hpk, hp0⟩)
          · exact Or.inl h2
          · rcases List.mem_cons.mp hp with rfl | hp2
            · exact absurd hpk hk
            · exact Or.inr ⟨h1, p, hp2, hpk, (hz p.2).mpr hp0⟩
    · have hstep : boundaryStep m q = m := by rw [boundaryStep, if_neg g]
      rw [hstep]
      constructor
      · rintro (h2 | ⟨h1, p, hp, hpk, hp0⟩)
        · exact Or.inl h2
        · exact Or.inr ⟨h1, p, List.mem_cons_of_mem _ hp, hpk, hp0⟩
      · rintro (h2 | ⟨h1, p, hp, hpk, hp0⟩)
        · exact Or.inl h2
        · rcases List.mem_cons.mp hp with rfl | hp2
          · have h1q : lookupD m p.1 = 1 := by
              rw [hpk]; exact (lookupD_eq_one_iff m k).mpr h1
            exact absurd ⟨hp0, h1q⟩ g
          · exact Or.inr ⟨h1, p, hp2, hpk, hp0⟩

/-! ## Lemmas: the analyzer as a whole -/

theorem analyze_bndRel (images : List (List String)) :
    bndRel (seedAll images) (analyze images) := by
  unfold analyze
  by_cases h : 1 < images.length
  · rw [if_pos h, boundaryAll_eq_foldl]
    exact bndRel_foldl _ _ _ (bndRel_refl _)
  · rw [if_neg h]; exact bndRel_refl _

theorem analyze_zero_iff (images : List (List String)) (k : String) :
    lookupD (analyze images) k = 0 ↔ lookupD (seedAll images) k = 0 := by
  unfold analyze
  by_cases h : 1 < images.length
  · rw [if_pos h, boundaryAll_eq_foldl]
    exact boundaryFold_zero _ _ _
  · rw [if_neg h]

theorem analyze_some_zero_iff (images : List (List String)) (k : String) :
    lookupL (analyze images) k = some 0 ↔ occCount images k = 1 := by
  rcases analyze_bndRel images k with he | ⟨hs, h2⟩
  · rw [he, seedAll_lookup_zero]
  · rw [h2]
    constructor
    · intro hx; simp at hx
    · intro hx
      have := ((seedAll_lookup_zero images k).mpr hx).symm.trans hs
      simp at this

theorem analyze_ge_two_iff (images : List (List String)) (k : String) :
    (lookupL (analyze images) k = some 1 ∨ lookupL (analyze images) k = some 2) ↔
      2 ≤ occCount images k := by
  rcases analyze_bndRel images k with he | ⟨hs, h2⟩
  · rw [he]
    constructor
    · rintro (h | h)
      · exact (seedAll_lookup_one images k).mp h
      · rcases seedAll_values images k 2 h with h0 | h0 <;> omega
    · intro h; exact Or.inl ((seedAll_lookup_one images k).mpr h)
  · rw [h2]
    constructor
    · intro _; exact (seedAll_lookup_one images k).mp hs
    · intro _; exact Or.inr rfl

theorem analyze_values (images : List (List String)) (k : String) (v : Nat)
    (h : lookupL (analyze images) k = some v) : v = 0 ∨ v = 1 ∨ v = 2 := by
  rcases analyze_bndRel images k with he | ⟨hs, h2⟩
  · rw [he] at h
    rcases seedAll_values images k v h with h0 | h0 <;> omega
  · have hv := h.symm.trans h2
    injection hv with hv
    omega

theorem analyze_two_iff (images : List (List String)) (k : String) :
    lookupL (analyze images) k = some 2 ↔
      (1 < images.length ∧ 2 ≤ occCount images k ∧
        boundaryWitness images (analyze images) k) := by
  unfold analyze boundaryWitness
  by_cases h : 1 < images.length
  · rw [if_pos h, boundaryAll_eq_foldl, boundaryFold_two_iff]
    constructor
    · rintro (h2 | ⟨h1, p, hp, hpk, hp0⟩)
      · rcases seedAll_values images k 2 h2 with h0 | h0 <;> omega
      · refine ⟨h, (seedAll_lookup_one images k).mp h1, p, hp, hpk, ?_⟩
        exact (boundaryFold_zero _ _ _).mpr hp0
    · rintro ⟨-, hocc, p, hp, hpk, hp0⟩
      refine Or.inr ⟨(seedAll_lookup_one images k).mpr hocc, p, hp, hpk, ?_⟩
      exact (boundaryFold_zero _ _ _).mp hp0
  · rw [if_neg h]
    constructor
    · intro h2
      rcases seedAll_values images k 2 h2 with h0 | h0 <;> omega
    · rintro ⟨hlen, -⟩; exact absurd hlen h

/-! ## Lemmas: history cursor skip and vector surgery -/

theorem delElem_length {α : Type} (l : List α) (pos : Nat) (h : pos < l.length) :
    (delElem l pos).length + 1 = l.length := by
  unfold delElem
  rw [List.length_append, List.length_take, List.length_drop]
  omega

theorem delElem_drop (hs : List History) (pos : Nat) (h : pos < hs.length) :
    (delElem hs pos).drop pos = hs.drop (pos + 1) := by
  unfold delElem
  have hlen : (hs.take pos).length = pos := by
    rw [List.length_take]; omega
  have h2 := List.drop_left (hs.take pos) (hs.drop (pos + 1))
  rwa [hlen] at h2

theorem get_decomp {α : Type} (l : List α) (pos : Nat) (a : α) (h : l.get? pos = some a) :
    l = l.take pos ++ a :: l.drop (pos + 1) := by
  obtain ⟨hlt, hget⟩ := List.get?_eq_some.mp h
  conv_lhs => rw [← List.take_append_drop pos l]
  rw [List.drop_eq_get_cons hlt, hget]

theorem countNonEmpty_delElem (hs : List History) (pos : Nat) (a : History)
    (hget : hs.get? pos = some a) (hne : a.emptyLayer = false) :
    countNonEmpty (delElem hs pos) + 1 = countNonEmpty hs := by
  have hd := get_decomp hs pos a hget
  unfold countNonEmpty delElem
  conv_rhs => rw [hd]
  rw [List.countP_append, List.countP_append, List.countP_cons]
  simp [hne]
  omega

theorem emptiesOf_delElem (hs : List History) (pos : Nat) (a : History)
    (hget : hs.get? pos = some a) (hne : a.emptyLayer = false) :
    emptiesOf (delElem hs pos) = emptiesOf hs := by
  have hd := get_decomp hs pos a hget
  unfold emptiesOf delElem
  conv_rhs => rw [hd]
  rw [List.filter_append, List.filter_append, List.filter_cons]
  simp [hne]

theorem skipEmptyAux_isSome (l : List History) :
    ∀ i, 0 < countNonEmpty l → (skipEmptyAux l i).isSome := by
  induction l with
  | nil => intro i h; simp [countNonEmpty] at h
  | cons a t ih =>
    intro i h
    cases ha : a.emptyLayer with
    | true =>
      have hc : countNonEmpty (a :: t) = countNonEmpty t := by
        unfold countNonEmpty; rw [List.countP_cons]; simp [ha]
      rw [hc] at h
      simpa [skipEmptyAux, ha] using ih (i + 1) h
    | false =>
      simp [skipEmptyAux, ha]

theorem skipEmptyAux_spec (l : List History) :
    ∀ i h2, skipEmptyAux l i = some h2 →
      i ≤ h2 ∧ h2 - i < l.length ∧
      (∃ a, l.get? (h2 - i) = some a ∧ a.emptyLayer = false) ∧
      countNonEmpty (l.drop (h2 - i + 1)) + 1 = countNonEmpty l := by
  induction l with
  | nil => intro i h2 h; simp [skipEmptyAux] at h
  | cons a t ih =>
    intro i h2 h
    cases ha : a.emptyLayer with
    | false =>
      rw [skipEmptyAux, ha] at h
      simp at h
      subst h
      refine ⟨Nat.le_refl i, by simp, ⟨a, by simp, ha⟩, ?_⟩
      have : i - i + 1 = 1 := by omega
      rw [this]
      unfold countNonEmpty
      rw [List.countP_cons]
      simp [ha]
    | true =>
      rw [skipEmptyAux, ha] at h
      simp at h
      obtain ⟨hle, hlt, ⟨b, hget, hbe⟩, hcount⟩ := ih (i + 1) h2 h
      have hstep : h2 - i = (h2 - (i + 1)) + 1 := by omega
      have hc : countNonEmpty (a :: t) = countNonEmpty t := by
        unfold countNonEmpty; rw [List.countP_cons]; simp [ha]
      refine ⟨by omega, by simp; omega, ⟨b, ?_, hbe⟩, ?_⟩
      · rw [hstep]; simpa using hget
      · rw [hstep, hc]
        simpa using hcount

theorem skipEmpty_spec (hs : List History) (i h2 : Nat) (h : skipEmpty hs i = some h2) :
    i ≤ h2 ∧ h2 < hs.length ∧
      (∃ a, hs.get? h2 = some a ∧ a.emptyLayer = false) ∧
      countNonEmpty (hs.drop (h2 + 1)) + 1 = countNonEmpty (hs.drop i) := by
  unfold skipEmpty at h
  obtain ⟨hle, hlt, ⟨a, hget, hne⟩, hcount⟩ := skipEmptyAux_spec (hs.drop i) i h2 h
  have hlen : (hs.drop i).length = hs.length - i := List.length_drop i hs
  refine ⟨hle, by omega, ⟨a, ?_, hne⟩, ?_⟩
  · rw [List.get?_drop] at hget
    have he : i + (h2 - i) = h2 := by omega
    rwa [he] at hget
  · rw [List.drop_drop] at hcount
    have he : i + (h2 - i + 1) = h2 + 1 := by omega
    rwa [he] at hcount

theorem skipEmpty_isSome (hs : List History) (i : Nat)
    (h : 0 < countNonEmpty (hs.drop i)) : (skipEmpty hs i).isSome := by
  unfold skipEmpty
  exact skipEmptyAux_isSome (hs.drop i) i h

theorem countNonEmpty_drop_succ (hs : List History) (i : Nat) :
    countNonEmpty (hs.drop i) ≤ countNonEmpty (hs.drop (i + 1)) + 1 := by
  by_cases hlt : i < hs.length
  · rw [List.drop_eq_get_cons hlt]
    unfold countNonEmpty
    rw [List.countP_cons]
    split <;> omega
  · rw [List.drop_eq_nil_of_le (by omega), List.drop_eq_nil_of_le (by omega)]
    simp [countNonEmpty]

/-! ## Lemmas: fusion loop invariants -/

/-- Exhaustive description of one fusion iteration. -/
theorem fusionIter_cases (m : List (String × Nat)) (s : MeltSt) :
    (s.layers.get? s.j = none ∧ fusionIter m s = .done s) ∨
    (∃ layer, s.layers.get? s.j = some layer ∧ s.rootLayer = "" ∧ lookupD m layer ≠ 2 ∧
      fusionIter m s = .next (rootStep s layer)) ∨
    (∃ layer, s.layers.get? s.j = some layer ∧ ¬(s.rootLayer = "" ∧ lookupD m layer ≠ 2) ∧
      skipEmpty s.history s.hist = none ∧ fusionIter m s = .fault) ∨
    (∃ layer h2, s.layers.get? s.j = some layer ∧ ¬(s.rootLayer = "" ∧ lookupD m layer ≠ 2) ∧
      skipEmpty s.history s.hist = some h2 ∧
      fusionIter m s = .next (meltStep m s layer h2)) := by
  cases hget : s.layers.get? s.j with
  | none =>
    have he : fusionIter m s = .done s := by
      unfold fusionIter; rw [hget]
    exact Or.inl ⟨rfl, he⟩
  | some layer =>
    by_cases hroot : s.rootLayer = "" ∧ lookupD m layer ≠ 2
    · have he : fusionIter m s = .next (rootStep s layer) := by
        unfold fusionIter; rw [hget]; dsimp only; rw [if_pos hroot]
      exact Or.inr (Or.inl ⟨layer, rfl, hroot.1, hroot.2, he⟩)
    · cases hskip : skipEmpty s.history s.hist with
      | none =>
        have he : fusionIter m s = .fault := by
          unfold fusionIter; rw [hget]; dsimp only; rw [if_neg hroot, hskip]
        exact Or.inr (Or.inr (Or.inl ⟨layer, rfl, hroot, rfl, he⟩))
      | some h2 =>
        have he : fusionIter m s = .next (meltStep m s layer h2) := by
          unfold fusionIter; rw [hget]; dsimp only; rw [if_neg hroot, hskip]
        exact Or.inr (Or.inr (Or.inr ⟨layer, h2, rfl, hroot, rfl, he⟩))

/-- Vector parity: the three per-image vectors stay in lockstep
(claim C3's invariant, phrased on the loop state). -/
def parity (s : MeltSt) : Prop :=
  s.layers.length = s.diffIds.length ∧ countNonEmpty s.history = s.layers.length

instance (s : MeltSt) : Decidable (parity s) := by
  unfold parity; infer_instance

theorem fusionIter_parity (m : List (String × Nat)) (s s2 : MeltSt) (hp : parity s)
    (h : fusionIter m s = .next s2 ∨ fusionIter m s = .done s2) : parity s2 := by
  rcases fusionIter_cases m s with ⟨hget, he⟩ | ⟨layer, hget, h1, hne2, he⟩ |
    ⟨layer, hget, hr, hskip, he⟩ | ⟨layer, h2, hget, hr, hskip, he⟩
  · rcases h with h | h <;> rw [he] at h <;> cases h
    exact hp
  · rcases h with h | h <;> rw [he] at h <;> cases h
    exact hp
  · rcases h with h | h <;> rw [he] at h <;> cases h
  · rcases h with h | h <;> rw [he] at h <;> cases h
    obtain ⟨hle, hlt, ⟨a, hget2, hnea⟩, hcount⟩ := skipEmpty_spec s.history s.hist h2 hskip
    have hj : s.j < s.layers.length := (List.get?_eq_some.mp hget).1
    have hj2 : s.j < s.diffIds.length := by
      have := hp.1; omega
    have d1 := delElem_length s.layers s.j hj
    have d2 := delElem_length s.diffIds s.j hj2
    have d3 := countNonEmpty_delElem s.history h2 a hget2 hnea
    have hpar1 := hp.1
    have hpar2 := hp.2
    constructor
    · show (delElem s.layers s.j).length = (delElem s.diffIds s.j).length
      omega
    · show countNonEmpty (delElem s.history h2) = (delElem s.layers s.j).length
      omega

theorem fusionIter_next_measure (m : List (String × Nat)) (s s2 : MeltSt)
    (h : fusionIter m s = .next s2) :
    s2.layers.length - s2.j < s.layers.length - s.j := by
  rcases fusionIter_cases m s with ⟨hget, he⟩ | ⟨layer, hget, h1, hne2, he⟩ |
    ⟨layer, hget, hr, hskip, he⟩ | ⟨layer, h2, hget, hr, hskip, he⟩
  · rw [he] at h; cases h
  · rw [he] at h; cases h
    have hj : s.j < s.layers.length := (List.get?_eq_some.mp hget).1
    show s.layers.length - (s.j + 1) < s.layers.length - s.j
    omega
  · rw [he] at h; cases h
  · rw [he] at h; cases h
    have hj : s.j < s.layers.length := (List.get?_eq_some.mp hget).1
    have d1 := delElem_length s.layers s.j hj
    show (delElem s.layers s.j).length - s.j < s.layers.length - s.j
    omega

/-- Loop invariant for bounds safety of the history cursor: the
history suffix from hist on still holds at least as many non-empty
entries as there are layers left to process. -/
def histInv (s : MeltSt) : Prop :=
  s.layers.length - s.j ≤ countNonEmpty (s.history.drop s.hist)

theorem fusionIter_no_fault (m : List (String × Nat)) (s : MeltSt) (hi : histInv s) :
    fusionIter m s ≠ .fault := by
  rcases fusionIter_cases m s with ⟨hget, he⟩ | ⟨layer, hget, h1, hne2, he⟩ |
    ⟨layer, hget, hr, hskip, he⟩ | ⟨layer, h2, hget, hr, hskip, he⟩
  · rw [he]; intro hc; cases hc
  · rw [he]; intro hc; cases hc
  · exfalso
    have hj : s.j < s.layers.length := (List.get?_eq_some.mp hget).1
    have hpos : 0 < countNonEmpty (s.history.drop s.hist) := by
      unfold histInv at hi; omega
    have hsome := skipEmpty_isSome s.history s.hist hpos
    rw [hskip] at hsome
    simp at hsome
  · rw [he]; intro hc; cases hc

theorem fusionIter_histInv (m : List (String × Nat)) (s s2 : MeltSt)
    (hi : histInv s) (h : fusionIter m s = .next s2) : histInv s2 := by
  rcases fusionIter_cases m s with ⟨hget, he⟩ | ⟨layer, hget, h1, hne2, he⟩ |
    ⟨layer, hget, hr, hskip, he⟩ | ⟨layer, h2, hget, hr, hskip, he⟩
  · rw [he] at h; cases h
  · rw [he] at h; cases h
    have hmono := countNonEmpty_drop_succ s.history s.hist
    unfold histInv at hi
    show s.layers.length - (s.j + 1) ≤ countNonEmpty (s.history.drop (s.hist + 1))
    omega
  · rw [he] at h; cases h
  · rw [he] at h; cases h
    obtain ⟨hle, hlt, ⟨a, hget2, hnea⟩, hcount⟩ := skipEmpty_spec s.history s.hist h2 hskip
    have hj : s.j < s.layers.length := (List.get?_eq_some.mp hget).1
    have d1 := delElem_length s.layers s.j hj
    have hdrop := delElem_drop s.history h2 hlt
    unfold histInv at hi
    show (delElem s.layers s.j).length - s.j ≤
      countNonEmpty ((delElem s.history h2).drop h2)
    rw [hdrop]
    omega

theorem fusionLoopF_isSome (m : List (String × Nat)) :
    ∀ (fuel : Nat) (s : MeltSt), histInv s → s.layers.length - s.j < fuel →
      (fusionLoopF m fuel s).isSome := by
  intro fuel
  induction fuel with
  | zero => intro s hi hf; omega
  | succ fuel ih =>
    intro s hi hf
    cases hc : fusionIter m s with
    | done s2 => simp [fusionLoopF, hc]
    | fault => exact absurd hc (fusionIter_no_fault m s hi)
    | next s2 =>
      have hm := fusionIter_next_measure m s s2 hc
      simp only [fusionLoopF, hc]
      exact ih s2 (fusionIter_histInv m s s2 hi hc) (by omega)

theorem fusionLoopF_parity (m : List (String × Nat)) :
    ∀ (fuel : Nat) (s s2 : MeltSt), parity s → fusionLoopF m fuel s = some s2 →
      parity s2 := by
  intro fuel
  induction fuel with
  | zero => intro s s2 hp h; simp [fusionLoopF] at h
  | succ fuel ih =>
    intro s s2 hp h
    cases hc : fusionIter m s with
    | done s3 =>
      simp only [fusionLoopF, hc] at h
      injection h with h
      subst h
      exact fusionIter_parity m s s3 hp (Or.inr hc)
    | fault =>
      simp only [fusionLoopF, hc] at h
      cases h
    | next s3 =>
      simp only [fusionLoopF, hc] at h
      exact ih s3 s2 (fusionIter_parity m s s3 hp (Or.inl hc)) h

theorem fusionIter_empties (m : List (String × Nat)) (s s2 : MeltSt)
    (h : fusionIter m s = .next s2 ∨ fusionIter m s = .done s2) :
    emptiesOf s2.history = emptiesOf s.history := by
  rcases fusionIter_cases m s with ⟨hget, he⟩ | ⟨layer, hget, h1, hne2, he⟩ |
    ⟨layer, hget, hr, hskip, he⟩ | ⟨layer, h2, hget, hr, hskip, he⟩
  · rcases h with h | h <;> rw [he] at h <;> cases h
    rfl
  · rcases h with h | h <;> rw [he] at h <;> cases h
    rfl
  · rcases h with h | h <;> rw [he] at h <;> cases h
  · rcases h with h | h <;> rw [he] at h <;> cases h
    obtain ⟨hle, hlt, ⟨a, hget2, hnea⟩, hcount⟩ := skipEmpty_spec s.history s.hist h2 hskip
    show emptiesOf (delElem s.history h2) = emptiesOf s.history
    exact emptiesOf_delElem s.history h2 a hget2 hnea

theorem fusionLoopF_empties (m : List (String × Nat)) :
    ∀ (fuel : Nat) (s s2 : MeltSt), fusionLoopF m fuel s = some s2 →
      emptiesOf s2.history = emptiesOf s.history := by
  intro fuel
  induction fuel with
  | zero => intro s s2 h; simp [fusionLoopF] at h
  | succ fuel ih =>
    intro s s2 h
    cases hc : fusionIter m s with
    | done s3 =>
      simp only [fusionLoopF, hc] at h
      injection h with h
      subst h
      exact fusionIter_empties m s s3 (Or.inr hc)
    | fault =>
      simp only [fusionLoopF, hc] at h
      cases h
    | next s3 =>
      simp only [fusionLoopF, hc] at h
      exact (ih s3 s2 h).trans (fusionIter_empties m s s3 (Or.inl hc))

theorem fusionIter_roots (m : List (String × Nat)) (s s2 : MeltSt)
    (h : fusionIter m s = .next s2 ∨ fusionIter m s = .done s2) :
    ∀ r ∈ s2.roots, r ∈ s.roots ∨ lookupD m r ≠ 2 := by
  rcases fusionIter_cases m s with ⟨hget, he⟩ | ⟨layer, hget, h1, hne2, he⟩ |
    ⟨layer, hget, hr, hskip, he⟩ | ⟨layer, h2, hget, hr, hskip, he⟩
  · rcases h with h | h <;> rw [he] at h <;> cases h
    intro r hr; exact Or.inl hr
  · rcases h with h | h <;> rw [he] at h <;> cases h
    intro r hr
    have : r ∈ s.roots ++ [layer] := hr
    rcases List.mem_append.mp this with hr2 | hr2
    · exact Or.inl hr2
    · simp at hr2
      subst hr2
      exact Or.inr hne2
  · rcases h with h | h <;> rw [he] at h <;> cases h
  · rcases h with h | h <;> rw [he] at h <;> cases h
    intro r hr; exact Or.inl hr

theorem fusionLoopF_roots (m : List (String × Nat)) :
    ∀ (fuel : Nat) (s s2 : MeltSt), fusionLoopF m fuel s = some s2 →
      ∀ r ∈ s2.roots, r ∈ s.roots ∨ lookupD m r ≠ 2 := by
  intro fuel
  induction fuel with
  | zero => intro s s2 h; simp [fusionLoopF] at h
  | succ fuel ih =>
    intro s s2 h
    cases hc : fusionIter m s with
    | done s3 =>
      simp only [fusionLoopF, hc] at h
      injection h with h
      subst h
      exact fusionIter_roots m s s3 (Or.inr hc)
    | fault =>
      simp only [fusionLoopF, hc] at h
      cases h
    | next s3 =>
      simp only [fusionLoopF, hc] at h
      intro r hr
      rcases ih s3 s2 h r hr with hr2 | hr2
      · exact fusionIter_roots m s s3 (Or.inl hc) r hr2
      · exact Or.inr hr2

/-! ## Lemmas: per-image and whole-run fusion -/

theorem runImage_isSome (m : List (String × Nat)) (img : MeltImage) (disk : List String)
    (h : countNonEmpty img.history = img.layers.length) :
    (runImage m img disk).isSome := by
  unfold runImage
  apply fusionLoopF_isSome
  · show img.layers.length - 0 ≤ countNonEmpty (img.history.drop 0)
    rw [List.drop_zero]
    omega
  · show img.layers.length - 0 < img.layers.length + 1
    omega

theorem runImage_roots (m : List (String × Nat)) (img : MeltImage) (disk : List String)
    (s2 : MeltSt) (h : runImage m img disk = some s2) :
    ∀ r ∈ s2.roots, lookupD m r ≠ 2 := by
  intro r hr
  rcases fusionLoopF_roots m _ _ _ h r hr with hr2 | hr2
  · cases hr2
  · exact hr2

theorem runImage_empties (m : List (String × Nat)) (img : MeltImage) (disk : List String)
    (s2 : MeltSt) (h : runImage m img disk = some s2) :
    emptiesOf s2.history = emptiesOf img.history :=
  fusionLoopF_empties m _ _ _ h

theorem runImage_parity (m : List (String × Nat)) (img : MeltImage) (disk : List String)
    (s2 : MeltSt) (hp : img.layers.length = img.diffIds.length)
    (hc : countNonEmpty img.history = img.layers.length)
    (h : runImage m img disk = some s2) : parity s2 :=
  fusionLoopF_parity m _ _ _ ⟨hp, hc⟩ h

theorem runAll_roots (m : List (String × Nat)) :
    ∀ (images : List MeltImage) (disk : List String)
      (out : List MeltImage × List String × List String × List (String × String)),
      runAll m images disk = some out → ∀ r ∈ out.2.2.1, lookupD m r ≠ 2 := by
  intro images
  induction images with
  | nil =>
    intro disk out h
    simp only [runAll] at h
    injection h with h
    subst h
    intro r hr
    cases hr
  | cons img rest ih =>
    intro disk out h
    cases hri : runImage m img disk with
    | none =>
      simp only [runAll, hri] at h
      cases h
    | some s =>
      cases hra : runAll m rest s.disk with
      | none =>
        simp only [runAll, hri, hra] at h
        cases h
      | some out2 =>
        obtain ⟨imgs, disk2, roots, melts⟩ := out2
        simp only [runAll, hri, hra] at h
        injection h with h
        subst h
        intro r hr
        rcases List.mem_append.mp hr with hr2 | hr2
        · exact runImage_roots m img disk s hri r hr2
        · exact ih s.disk (imgs, disk2, roots, melts) hra r hr2

/-! ## Lemmas: whiteout name predicates -/

theorem listIsPre_decomp {α : Type} [DecidableEq α] :
    ∀ (p l : List α), listIsPre p l = true → l = p ++ l.drop p.length := by
  intro p
  induction p with
  | nil => intro l h; simp
  | cons a ps ih =>
    intro l h
    cases l with
    | nil => simp [listIsPre] at h
    | cons b t =>
      simp only [listIsPre, Bool.and_eq_true, decide_eq_true_eq] at h
      obtain ⟨rfl, h2⟩ := h
      show a :: t = a :: (ps ++ t.drop ps.length)
      rw [← ih t h2]

theorem whRegexMatch_excluded (n : String) (h : whRegexMatch n = true) :
    rsyncExcluded n = true := by
  simp only [whRegexMatch, Bool.and_eq_true] at h
  exact h.1

theorem rsyncExcluded_decomp (n : String) (h : rsyncExcluded n = true) :
    n.toList = (".wh.").toList ++ (whTarget n).toList := by
  unfold rsyncExcluded at h
  have hd := listIsPre_decomp (".wh.").toList n.toList h
  have hlen : (".wh.").toList.length = 4 := rfl
  rw [hlen] at hd
  exact hd

theorem mem_copiedNames (names : List String) (n : String) :
    n ∈ copiedNames names ↔ n ∈ names ∧ rsyncExcluded n = false := by
  unfold copiedNames
  rw [List.mem_filter]
  simp

theorem mem_removedTargets (names : List String) (t : String) :
    t ∈ removedTargets names ↔ ∃ n ∈ names, whRegexMatch n = true ∧ t = whTarget n := by
  unfold removedTargets
  rw [List.mem_map]
  constructor
  · rintro ⟨n, hn, rfl⟩
    have := List.mem_filter.mp hn
    exact ⟨n, this.1, this.2, rfl⟩
  · rintro ⟨n, hn, hw, rfl⟩
    exact ⟨n, List.mem_filter.mpr ⟨hn, hw⟩, rfl⟩

/-! ## Lemmas: first-occurrence byte substitution -/

theorem patIndex?_isPre {α : Type} [DecidableEq α] (pat : List α) :
    ∀ (s : List α) (i : Nat), patIndex? s pat = some i →
      listIsPre pat (s.drop i) = true ∧ i ≤ s.length := by
  intro s
  induction s with
  | nil =>
    intro i h
    simp only [patIndex?] at h
    split at h
    · injection h with h
      subst h
      constructor
      · next hp => exact hp
      · exact Nat.le_refl 0
    · cases h
  | cons a t ih =>
    intro i h
    simp only [patIndex?] at h
    split at h
    · injection h with h
      subst h
      next hp => exact ⟨hp, by simp⟩
    · cases hpi : patIndex? t pat with
      | none => rw [hpi] at h; cases h
      | some i2 =>
        rw [hpi] at h
        simp at h
        subst h
        obtain ⟨h1, h2⟩ := ih i2 hpi
        refine ⟨?_, by simp; omega⟩
        simpa using h1

theorem patIndex?_first {α : Type} [DecidableEq α] (pat : List α) :
    ∀ (s : List α) (i : Nat), patIndex? s pat = some i →
      ∀ i2, i2 < i → listIsPre pat (s.drop i2) = false := by
  intro s
  induction s with
  | nil =>
    intro i h i2 hlt
    simp only [patIndex?] at h
    split at h
    · injection h with h; omega
    · cases h
  | cons a t ih =>
    intro i h i2 hlt
    simp only [patIndex?] at h
    split at h
    · injection h with h; omega
    · cases hpi : patIndex? t pat with
      | none => rw [hpi] at h; cases h
      | some i3 =>
        rw [hpi] at h
        simp at h
        subst h
        cases i2 with
        | zero =>
          next hp =>
            simp at hp
            simpa using hp
        | succ i2 =>
          simpa using ih i3 hpi i2 (by omega)

theorem patIndex?_none_no_occurrence {α : Type} [DecidableEq α] (pat : List α) :
    ∀ s : List α, patIndex? s pat = none →
      ∀ i, listIsPre pat (s.drop i) = false := by
  intro s
  induction s with
  | nil =>
    intro h i
    simp only [patIndex?] at h
    split at h
    · cases h
    · next hp =>
        simp at hp
        simpa using hp
  | cons a t ih =>
    intro h i
    simp only [patIndex?] at h
    split at h
    · cases h
    · cases hpi : patIndex? t pat with
      | some i2 => rw [hpi] at h; simp at h
      | none =>
        cases i with
        | zero =>
          next hp =>
            simp at hp
            simpa using hp
        | succ i => simpa using ih hpi i

theorem patIndex?_of_occurrences_zero (s pat : List Nat) (h : occurrences s pat = 0) :
    patIndex? s pat = none := by
  cases hpi : patIndex? s pat with
  | none => rfl
  | some i =>
    exfalso
    obtain ⟨hpre, hle⟩ := patIndex?_isPre pat s i hpi
    unfold occurrences at h
    rw [List.countP_eq_zero] at h
    exact absurd hpre (by simpa using h i (List.mem_range.mpr (by omega)))

theorem bytesReplace1_of_none (s old new : List Nat) (h : patIndex? s old = none) :
    bytesReplace1 s old new = s := by
  unfold bytesReplace1
  rw [h]

theorem bytesReplace1_of_some (s old new : List Nat) (i : Nat)
    (h : patIndex? s old = some i) :
    bytesReplace1 s old new = s.take i ++ new ++ s.drop (i + old.length) := by
  unfold bytesReplace1
  rw [h]

/-! ## Lemmas: repack table and diff-id writeback -/

theorem lookupS_cons (k0 v : String) (t : List (String × String)) (k : String) :
    lookupS ((k0, v) :: t) k = if k0 = k then v else lookupS t k := by
  by_cases h : k0 = k
  · subst h
    simp [lookupS, List.find?_cons_of_pos]
  · simp [lookupS, List.find?_cons_of_neg, h]

theorem lookupS_repackTable (hash : String → List Nat) (disk : List String) :
    ∀ (keys : List String) (k : String), k ∈ keys → k ∈ disk →
      lookupS (repackTable hash disk keys) k = "sha256:" ++ hexEncode (hash k) := by
  intro keys
  induction keys with
  | nil => intro k hk _; cases hk
  | cons k0 t ih =>
    intro k hk hd
    by_cases h0 : k0 ∈ disk
    · have hf : repackTable hash disk (k0 :: t) =
          (k0, "sha256:" ++ hexEncode (hash k0)) :: repackTable hash disk t := by
        unfold repackTable
        rw [List.filterMap_cons, if_pos h0]
      rw [hf, lookupS_cons]
      by_cases hkk : k0 = k
      · subst hkk; rw [if_pos rfl]
      · rw [if_neg hkk]
        have hkt : k ∈ t := by
          rcases List.mem_cons.mp hk with rfl | hk2
          · exact absurd rfl hkk
          · exact hk2
        exact ih k hkt hd
    · have hf : repackTable hash disk (k0 :: t) = repackTable hash disk t := by
        unfold repackTable
        rw [List.filterMap_cons, if_neg h0]
      rw [hf]
      have hkt : k ∈ t := by
        rcases List.mem_cons.mp hk with rfl | hk2
        · exact absurd hd h0
        · exact hk2
      exact ih k hkt hd

theorem writebackDiffIds_get (table : List (String × String)) (layers diffIds : List String)
    (j : Nat) (hj : j < layers.length) (hd : j < diffIds.length) :
    (writebackDiffIds table layers diffIds).get? j =
      some (lookupS table (layers.get ⟨j, hj⟩)) := by
  unfold writebackDiffIds
  rw [List.get?_map, List.get?_enum, List.get?_eq_get hd]
  simp only [Option.map_some']
  rw [List.get?_eq_get hj]

/-! ## Lemmas: seeded map has unique keys -/

def keysOf (m : List (String × Nat)) : List String := m.map Prod.fst

theorem keysOf_updateL (m : List (String × Nat)) (k : String) (v : Nat) :
    keysOf (updateL m k v) = keysOf m := by
  unfold keysOf updateL
  rw [List.map_map]
  apply List.map_congr_left
  intro p _
  by_cases h : p.1 = k
  · simp [Function.comp, h]
  · simp [Function.comp, h]

theorem lookupL_none_iff (m : List (String × Nat)) (k : String) :
    lookupL m k = none ↔ k ∉ keysOf m := by
  unfold lookupL keysOf
  rw [Option.map_eq_none', List.find?_eq_none]
  constructor
  · intro h hk
    rcases List.mem_map.mp hk with ⟨p, hp, hpk⟩
    exact absurd (by simpa using hpk) (by simpa using h p hp)
  · intro h p hp
    simp only [beq_iff_eq]
    intro hpk
    exact h (List.mem_map.mpr ⟨p, hp, hpk⟩)

theorem seedLayer_nodupKeys (m : List (String × Nat)) (lay : String)
    (h : (keysOf m).Nodup) : (keysOf (seedLayer m lay)).Nodup := by
  cases hl : lookupL m lay with
  | none =>
    have : seedLayer m lay = (lay, 0) :: m := by
      unfold seedLayer; rw [hl]
    rw [this]
    show (lay :: keysOf m).Nodup
    exact List.nodup_cons.mpr ⟨(lookupL_none_iff m lay).mp hl, h⟩
  | some v =>
    cases v with
    | zero =>
      have : seedLayer m lay = updateL m lay 1 := by
        unfold seedLayer; rw [hl]
      rw [this, keysOf_updateL]
      exact h
    | succ v =>
      have : seedLayer m lay = m := by
        unfold seedLayer; rw [hl]
        rfl
      rw [this]
      exact h

theorem seedList_nodupKeys (l : List String) :
    ∀ m, (keysOf m).Nodup → (keysOf (l.foldl seedLayer m)).Nodup := by
  induction l with
  | nil => intro m h; exact h
  | cons a t ih => intro m h; exact ih _ (seedLayer_nodupKeys m a h)

theorem seedAll_nodupKeys (images : List (List String)) :
    (keysOf (seedAll images)).Nodup := by
  rw [seedAll_eq_flatten]
  exact seedList_nodupKeys images.flatten [] (by simp [keysOf])

theorem lookupL_of_mem_nodup (m : List (String × Nat)) (k : String) (v : Nat)
    (hnd : (keysOf m).Nodup) (hm : (k, v) ∈ m) : lookupL m k = some v := by
  induction m with
  | nil => cases hm
  | cons p t ih =>
    obtain ⟨k0, v0⟩ := p
    have hnd2 : k0 ∉ keysOf t ∧ (keysOf t).Nodup := by
      have : (k0 :: keysOf t).Nodup := hnd
      exact List.nodup_cons.mp this
    rw [lookupL_cons]
    rcases List.mem_cons.mp hm with he | hm2
    · have hk : k = k0 := congrArg Prod.fst he
      have hv : v = v0 := congrArg Prod.snd he
      subst hk
      subst hv
      rw [if_pos rfl]
    · by_cases h : k0 = k
      · exfalso
        apply hnd2.1
        rw [h]
        exact List.mem_map.mpr ⟨(k, v), hm2, rfl⟩
      · rw [if_neg h]
        exact ih hnd2.2 hm2

theorem seedAll_countP_zero (images : List (List String))
    (h : ∀ k v, lookupL (seedAll images) k = some v → v ≠ 0) :
    (seedAll images).countP (fun p => p.2 == 0) = 0 := by
  rw [List.countP_eq_zero]
  intro p hp
  simp only [beq_iff_eq]
  intro h0
  have hl : lookupL (seedAll images) p.1 = some p.2 := by
    apply lookupL_of_mem_nodup _ _ _ (seedAll_nodupKeys images)
    simpa using hp
  exact h p.1 p.2 hl h0

/-! ## Concrete inputs used by the claim theorems -/

/-- A non-empty history entry carrying a distinguishing created_by. -/
def mkHist (s : String) : History := ⟨"", "", s, "", false⟩

/-- An empty-layer history entry. -/
def mkEmptyHist : History := ⟨"", "", "", "", true⟩

/-- Image X of the two-image shared-prefix scenario: layers A, B, X1. -/
def imgX : MeltImage := ⟨["A/layer.tar", "B/layer.tar", "X1/layer.tar"],
  ["dxa", "dxb", "dxc"], [mkHist "xa", mkHist "xb", mkHist "xc"]⟩

/-- Image Y of the two-image shared-prefix scenario: layers A, B, Y1. -/
def imgY : MeltImage := ⟨["A/layer.tar", "B/layer.tar", "Y1/layer.tar"],
  ["dya", "dyb", "dyc"], [mkHist "ya", mkHist "yb", mkHist "yc"]⟩

/-- Single image with four layers and five history entries, the middle
one empty (spec scenario 6). -/
def imgFour : MeltImage := ⟨["L1/layer.tar", "L2/layer.tar", "L3/layer.tar", "L4/layer.tar"],
  ["d1", "d2", "d3", "d4"], [mkHist "h1", mkHist "h2", mkEmptyHist, mkHist "h3", mkHist "h4"]⟩

/-- The full output of the fusion phase on the two-image scenario. -/
def exOutXY : List MeltImage × List String × List String × List (String × String) :=
  ([⟨["A/layer.tar", "X1/layer.tar"], ["dxa", "dxc"], [mkHist "xa", mkHist "xc"]⟩,
    ⟨["A/layer.tar", "Y1/layer.tar"], ["dya", "dyc"], [mkHist "ya", mkHist "yc"]⟩],
   ["Y1/layer.tar", "X1/layer.tar", "A/layer.tar"],
   ["A/layer.tar", "X1/layer.tar", "A/layer.tar", "Y1/layer.tar"],
   [("B/layer.tar", "A/layer"), ("B/layer.tar", "A/layer")])

/-- The analyzer map of the four-layer single image. -/
def mFour : List (String × Nat) := analyze [imgFour.layers]

/-- The initial disk state of the four-layer run. -/
def diskFour : List String := mFour.map Prod.fst

/-- The final fusion-loop state of the four-layer run. -/
def sFour : MeltSt :=
  ⟨["L1/layer.tar"], ["d1"], [mkHist "h1", mkEmptyHist], 1, 2, "L1/layer",
    ["L1/layer.tar"], ["L1/layer.tar"],
    [("L2/layer.tar", "L1/layer"), ("L3/layer.tar", "L1/layer"), ("L4/layer.tar", "L1/layer")]⟩

/-! ## Claim theorems -/

/-- Claim C1, counterexample.  On the two-image input X = A,B,X1 and
Y = A,B,Y1 the analyzer assigns B multiplicity 2, yet the fusion loop
melts B into the preceding root A (twice, once per image traversal)
and removes B from both images' layer lists, so the claim that a
multiplicity-2 layer is never melted and never removed from a layer
list is false; B is in both input layer lists but in neither output
list. -/
theorem boundary_layer_melted_cex :
    lookupD (analyze [imgX.layers, imgY.layers]) "B/layer.tar" = 2 ∧
    meltImages [imgX, imgY] = some exOutXY ∧
    ("B/layer.tar" ∈ imgX.layers ∧ "B/layer.tar" ∈ imgY.layers) ∧
    "B/layer.tar" ∉ (exOutXY.1.map MeltImage.layers).flatten ∧
    ("B/layer.tar", "A/layer") ∈ exOutXY.2.2.2 := by
  decide

/-- Claim C1, amended.  A layer whose analyzer multiplicity is 2 is
never selected as a root layer (the sink of a melt), but it can be
melted into a preceding root and removed from every image's layer
list.  In the two-image input (multiplicities A=1, B=2, X1=0, Y1=0),
B is melted into root A and removed from both layer lists, A stays in
both lists, X1 and Y1 stay as tails, and exactly three distinct
layers remain on disk. -/
theorem boundary_layer_never_root :
    (∀ (images : List MeltImage)
        (out : List MeltImage × List String × List String × List (String × String)),
        meltImages images = some out →
        ∀ r ∈ out.2.2.1, lookupD (analyze (images.map MeltImage.layers)) r ≠ 2) ∧
    (meltImages [imgX, imgY] = some exOutXY ∧
      exOutXY.1.map MeltImage.layers =
        [["A/layer.tar", "X1/layer.tar"], ["A/layer.tar", "Y1/layer.tar"]] ∧
      exOutXY.2.1.length = 3 ∧
      lookupD (analyze [imgX.layers, imgY.layers]) "A/layer.tar" = 1 ∧
      lookupD (analyze [imgX.layers, imgY.layers]) "B/layer.tar" = 2 ∧
      lookupD (analyze [imgX.layers, imgY.layers]) "X1/layer.tar" = 0 ∧
      lookupD (analyze [imgX.layers, imgY.layers]) "Y1/layer.tar" = 0) := by
  constructor
  · intro images out h r hr
    have h2 : runAll (analyze (images.map MeltImage.layers)) images
        ((analyze (images.map MeltImage.layers)).map Prod.fst) = some out := h
    exact runAll_roots _ _ _ _ h2 r hr
  · decide

/-- Witness for C1's amended theorem: applying the general part to the
concrete two-image run shows the chosen root A is not a boundary. -/
theorem boundary_layer_never_root_witness :
    lookupD (analyze ([imgX, imgY].map MeltImage.layers)) "A/layer.tar" ≠ 2 :=
  boundary_layer_never_root.1 [imgX, imgY] exOutXY (by decide) "A/layer.tar" (by decide)

/-- Claim C2, counterexample.  With the single image list [A, A] the
key A occurs in exactly one image's list, yet the single-pass seeding
counts the duplicate occurrence and the analyzer maps A to 1, so
"maps to 0 iff it occurs in exactly one image's list" and "maps to 1
or 2 iff it occurs in two or more images' lists" are both false. -/
theorem analyzer_image_count_cex :
    lookupL (analyze [["A", "A"]]) "A" = some 1 ∧
    imagesContaining [["A", "A"]] "A" = 1 := by
  decide

/-- Claim C2, amended.  After the analyzer runs, every key maps to 0,
1 or 2; a key maps to 0 iff it occurs exactly once across all images'
lists (counting repeats inside a single list); it maps to 1 or 2 iff
it occurs at least twice; and it maps to 2 iff additionally the
manifest has more than one image entry and in some image the key is
immediately followed by a layer that maps to 0. -/
theorem analyzer_multiplicity_spec (images : List (List String)) (k : String) :
    (∀ v, lookupL (analyze images) k = some v → v = 0 ∨ v = 1 ∨ v = 2) ∧
    (lookupL (analyze images) k = some 0 ↔ occCount images k = 1) ∧
    ((lookupL (analyze images) k = some 1 ∨ lookupL (analyze images) k = some 2) ↔
      2 ≤ occCount images k) ∧
    (lookupL (analyze images) k = some 2 ↔
      (1 < images.length ∧ 2 ≤ occCount images k ∧
        boundaryWitness images (analyze images) k)) :=
  ⟨fun v h => analyze_values images k v h, analyze_some_zero_iff images k,
    analyze_ge_two_iff images k, analyze_two_iff images k⟩

/-- Witness for C2's amended theorem at the two-image input: the value
of the boundary layer B is among 0, 1, 2. -/
theorem analyzer_multiplicity_spec_witness :
    (2 : Nat) = 0 ∨ (2 : Nat) = 1 ∨ (2 : Nat) = 2 :=
  (analyzer_multiplicity_spec [imgX.layers, imgY.layers] "B/layer.tar").1 2 (by decide)

/-- Claim C3.  Vector parity: if the layer list, the diff-id list and
the non-empty history entries agree in number, then they still agree
after each iteration of the fusion loop, and after the whole loop. -/
theorem fusion_vector_parity (m : List (String × Nat)) (s s2 : MeltSt) (hp : parity s) :
    ((fusionIter m s = .next s2 ∨ fusionIter m s = .done s2) → parity s2) ∧
    (∀ fuel, fusionLoopF m fuel s = some s2 → parity s2) :=
  ⟨fun h => fusionIter_parity m s s2 hp h,
   fun fuel h => fusionLoopF_parity m fuel s s2 hp h⟩

/-- Witness for C3 on the four-layer image: the full melt keeps the
vectors in lockstep (one layer, one diff-id, one non-empty history
entry). -/
theorem fusion_vector_parity_witness : parity sFour :=
  (fusion_vector_parity mFour (initSt imgFour diskFour) sFour (by decide)).2 5 (by decide)

theorem decodeEntries_error (dl : List Nat → Except String (List String)) :
    ∀ raws : List (Option (List Nat)), none ∈ raws →
      ∃ e, decodeEntries dl raws = Except.error e := by
  intro raws
  induction raws with
  | nil => intro h; cases h
  | cons r t ih =>
    intro h
    cases r with
    | none => exact ⟨"Corrupt manifest file.", rfl⟩
    | some raw =>
      have ht : none ∈ t := by
        rcases List.mem_cons.mp h with h2 | h2
        · cases h2
        · exact h2
      obtain ⟨e, he⟩ := ih ht
      cases hdl : dl raw with
      | error e2 => exact ⟨e2, by simp [decodeEntries, hdl]⟩
      | ok ls => exact ⟨e, by simp [decodeEntries, hdl, he]⟩

/-- Claim C4.  The history reconciliation advances the cursor past
empty_layer entries and deletes only a non-empty entry, so the
empty-layer history entries of the input survive the whole fusion
loop; on the four-layer image with five history entries (the middle
one empty) the full melt leaves exactly one non-empty entry and the
empty one is preserved. -/
theorem history_empties_preserved :
    (∀ (m : List (String × Nat)) (fuel : Nat) (s s2 : MeltSt),
        fusionLoopF m fuel s = some s2 → emptiesOf s2.history = emptiesOf s.history) ∧
    (meltImages [imgFour] =
        some ([⟨["L1/layer.tar"], ["d1"], [mkHist "h1", mkEmptyHist]⟩],
          ["L1/layer.tar"], ["L1/layer.tar"],
          [("L2/layer.tar", "L1/layer"), ("L3/layer.tar", "L1/layer"),
            ("L4/layer.tar", "L1/layer")]) ∧
      countNonEmpty [mkHist "h1", mkEmptyHist] = 1 ∧
      emptiesOf [mkHist "h1", mkEmptyHist] = [mkEmptyHist] ∧
      emptiesOf imgFour.history = [mkEmptyHist]) := by
  constructor
  · intro m fuel s s2 h
    exact fusionLoopF_empties m fuel s s2 h
  · decide

/-- Witness for C4 on the four-layer run: the empty entries of the
final history are exactly those of the input history. -/
theorem history_empties_preserved_witness :
    emptiesOf sFour.history = emptiesOf (initSt imgFour diskFour).history :=
  history_empties_preserved.1 mFour 5 (initSt imgFour diskFour) sFour (by decide)

/-- Claim C5, counterexample.  The copy into the root layer is
filtered by rsync's glob --exclude=.wh.*, not by the whiteout regular
expression: .wh..wh..opq does not match the regular expression yet is
withheld from the copy, so "withheld exactly when the basename
matches the regex" and ".wh..wh..opq is copied through" are both
false. -/
theorem whiteout_copy_filter_cex :
    rsyncExcluded ".wh..wh..opq" = true ∧
    whRegexMatch ".wh..wh..opq" = false ∧
    copiedNames [".wh..wh..opq"] = [] := by
  decide

/-- Claim C5, amended.  A file is withheld from the rsync copy exactly
when its basename starts with ".wh." (the glob .wh.*).  Every name
matching the whiteout regular expression is also withheld, so no
regex whiteout reaches the destination, and .wh..wh..opq is withheld
although it does not match the regex.  For each name that matches the
regex, removeWhiteouts removes the destination entity named by the
basename with its 4-character ".wh." prefix stripped. -/
theorem whiteout_copy_filter_spec :
    (∀ (names : List String) (n : String),
      n ∈ copiedNames names ↔ (n ∈ names ∧ rsyncExcluded n = false)) ∧
    (∀ n : String, whRegexMatch n = true → rsyncExcluded n = true) ∧
    (∀ n : String, rsyncExcluded n = true →
      n.toList = (".wh.").toList ++ (whTarget n).toList) ∧
    (∀ (names : List String) (t : String), t ∈ removedTargets names ↔
      ∃ n ∈ names, whRegexMatch n = true ∧ t = whTarget n) ∧
    (rsyncExcluded ".wh..wh..opq" = true ∧ whRegexMatch ".wh..wh..opq" = false) :=
  ⟨fun names n => mem_copiedNames names n,
   fun n h => whRegexMatch_excluded n h,
   fun n h => rsyncExcluded_decomp n h,
   fun names t => mem_removedTargets names t,
   by decide⟩

/-- Witness for C5's amended theorem: a regex whiteout name is
withheld from the copy. -/
theorem whiteout_copy_filter_spec_witness : rsyncExcluded ".wh.a" = true :=
  whiteout_copy_filter_spec.2.1 ".wh.a" (by decide)

/-- Claim C6, counterexample.  bytes.Replace with count 1 does not
detect zero or multiple occurrences: on bytes in which the raw slice
occurs twice updateHistory succeeds and rewrites only the first
occurrence, and on bytes with no occurrence it succeeds leaving the
input unchanged — neither case is fatal. -/
theorem flush_occurrence_not_fatal_cex :
    occurrences [1, 2, 1, 2] [1, 2] = 2 ∧
    updateHistory [1, 2, 1, 2] [1, 2] [9] = Except.ok [9, 1, 2] ∧
    occurrences [3, 4] [1, 2] = 0 ∧
    updateHistory [3, 4] [1, 2] [9] = Except.ok [3, 4] :=
  ⟨by decide, rfl, by decide, rfl⟩

/-- Claim C6, amended.  The three flush operations substitute the
first occurrence of the captured raw slice (a single-replace, not a
global replace) and always succeed: zero occurrences leave the bytes
unchanged, and when an occurrence exists the replacement happens at
the first matching position only. -/
theorem flush_first_occurrence_spec (raw old repl : List Nat) :
    (updateHistory raw old repl = Except.ok (bytesReplace1 raw old repl) ∧
     updateRootfs raw old repl = Except.ok (bytesReplace1 raw old repl) ∧
     updateLayers raw old repl = Except.ok (bytesReplace1 raw old repl)) ∧
    (occurrences raw old = 0 → bytesReplace1 raw old repl = raw) ∧
    (∀ i, patIndex? raw old = some i →
      bytesReplace1 raw old repl = raw.take i ++ repl ++ raw.drop (i + old.length) ∧
      listIsPre old (raw.drop i) = true ∧
      ∀ i2, i2 < i → listIsPre old (raw.drop i2) = false) := by
  refine ⟨⟨rfl, rfl, rfl⟩, ?_, ?_⟩
  · intro h
    exact bytesReplace1_of_none raw old repl (patIndex?_of_occurrences_zero raw old h)
  · intro i h
    exact ⟨bytesReplace1_of_some raw old repl i h,
      (patIndex?_isPre old raw i h).1, fun i2 hlt => patIndex?_first old raw i h i2 hlt⟩

/-- Witness for C6's amended theorem: a raw slice that occurs nowhere
leaves the bytes unchanged. -/
theorem flush_first_occurrence_spec_witness :
    bytesReplace1 [3, 4] [1, 2] [9] = [3, 4] :=
  (flush_first_occurrence_spec [3, 4] [1, 2] [9]).2.1 (by decide)

/-- Claim C7, counterexample.  A zero-size config file is not
rejected: UnmarshalJSON returns success on an empty buffer although
both raw slices are missing; the manifest loader has the same
zero-size early return. -/
theorem loader_zero_size_cex :
    unmarshalImageConfig [] (fun _ => Except.ok ⟨none, none⟩)
        (fun _ => Except.ok none) (fun _ => Except.ok none) = Except.ok none ∧
    unmarshalManifest [] (fun _ => Except.ok [none]) (fun _ => Except.ok []) =
      Except.ok none := by
  constructor <;> rfl

/-- Claim C7, amended.  For every non-empty config file whose decode
leaves the history or rootfs raw slice missing the loader errors out
with "Corrupt image configuration.", and for every non-empty manifest
whose decode contains an entry with a missing Layers raw slice the
loader returns an error; a zero-size file, however, returns success
without loading anything. -/
theorem loader_missing_raw_slice_spec :
    (∀ (buf : List Nat) (dt : List Nat → Except String ConfigRawFields)
        (dh : List Nat → Except String (Option (List History)))
        (dr : List Nat → Except String (Option Rootfs)) (fields : ConfigRawFields),
        buf.length ≠ 0 → dt buf = Except.ok fields →
        (fields.rawHistory = none ∨ fields.rawRootfs = none) →
        unmarshalImageConfig buf dt dh dr = Except.error "Corrupt image configuration.") ∧
    (∀ (buf : List Nat) (dt : List Nat → Except String (List (Option (List Nat))))
        (dl : List Nat → Except String (List String)) (raws : List (Option (List Nat))),
        buf.length ≠ 0 → dt buf = Except.ok raws → none ∈ raws →
        ∃ e, unmarshalManifest buf dt dl = Except.error e) ∧
    (∀ dt dh dr, unmarshalImageConfig [] dt dh dr = Except.ok none) ∧
    (∀ dt dl, unmarshalManifest [] dt dl = Except.ok none) := by
  refine ⟨?_, ?_, ?_, ?_⟩
  · intro buf dt dh dr fields hlen hdt hmiss
    unfold unmarshalImageConfig
    rw [if_neg hlen, hdt]
    obtain ⟨rh, rr⟩ := fields
    rcases hmiss with h | h
    · simp only at h
      subst h
      cases rr <;> rfl
    · simp only at h
      subst h
      cases rh <;> rfl
  · intro buf dt dl raws hlen hdt hmem
    obtain ⟨e, he⟩ := decodeEntries_error dl raws hmem
    refine ⟨e, ?_⟩
    unfold unmarshalManifest
    rw [if_neg hlen, hdt]
    dsimp only
    rw [he]
  · intro dt dh dr; rfl
  · intro dt dl; rfl

/-- Witness for C7's amended theorem: a one-byte config whose decode
yields no raw slices is rejected as corrupt. -/
theorem loader_missing_raw_slice_spec_witness :
    unmarshalImageConfig [7] (fun _ => Except.ok ⟨none, none⟩)
        (fun _ => Except.ok none) (fun _ => Except.ok none) =
      Except.error "Corrupt image configuration." :=
  loader_missing_raw_slice_spec.1 [7] _ _ _ ⟨none, none⟩ (by decide) rfl (Or.inl rfl)

theorem lookupL_value_mem (m : List (String × Nat)) (k : String) (v : Nat)
    (h : lookupL m k = some v) : ∃ p ∈ m, p.2 = v := by
  unfold lookupL at h
  cases hf : m.find? (fun p => p.1 == k) with
  | none => rw [hf] at h; cases h
  | some p =>
    rw [hf] at h
    simp at h
    exact ⟨p, List.mem_of_find?_eq_some hf, h⟩

/-- Claim C8.  After the repack phase, for every image and every
surviving index j whose layer key is among the analyzer's keys and
whose archive is still on disk, the diff-id written back at j equals
"sha256:" followed by the lowercase hexadecimal digest of the newly
created layer archive, obtained from the shared table keyed by the
layer key (not by position). -/
theorem diffid_writeback_spec (hash : String → List Nat) (disk keys : List String)
    (layers diffIds : List String) (j : Nat) (hj : j < layers.length)
    (hd : j < diffIds.length) (hkey : layers.get ⟨j, hj⟩ ∈ keys)
    (hdisk : layers.get ⟨j, hj⟩ ∈ disk) :
    (writebackDiffIds (repackTable hash disk keys) layers diffIds).get? j =
      some ("sha256:" ++ hexEncode (hash (layers.get ⟨j, hj⟩))) := by
  rw [writebackDiffIds_get (repackTable hash disk keys) layers diffIds j hj hd,
    lookupS_repackTable hash disk keys _ hkey hdisk]

/-- Witness for C8 on a one-layer table: the diff-id is the sha256
prefix plus the lowercase hex digest of the repacked archive. -/
theorem diffid_writeback_spec_witness :
    (writebackDiffIds (repackTable (fun _ => [0, 255]) ["k/layer.tar"] ["k/layer.tar"])
        ["k/layer.tar"] ["dold"]).get? 0 = some ("sha256:" ++ hexEncode [0, 255]) :=
  diffid_writeback_spec (fun _ => [0, 255]) ["k/layer.tar"] ["k/layer.tar"]
    ["k/layer.tar"] ["dold"] 0 (by decide) (by decide) (by decide) (by decide)

/-- Claim C9.  If the total layer count across all images is at most
1, or there is more than one image entry and no key of the seeded map
has value 0 (all layers shared), the run takes the nothing-to-do
exit: success status with no output archive written. -/
theorem nothing_to_do_exit (images : List (List String))
    (h : (images.map List.length).sum ≤ 1 ∨
      (1 < images.length ∧ ∀ k v, lookupL (seedAll images) k = some v → v ≠ 0)) :
    earlyDecision images = EarlyOutcome.nothingToDo := by
  unfold earlyDecision
  rcases h with h | ⟨hlen, hz⟩
  · rw [if_pos h]
  · by_cases h1 : (images.map List.length).sum ≤ 1
    · rw [if_pos h1]
    · rw [if_neg h1, if_pos ⟨hlen, seedAll_countP_zero images hz⟩]

/-- Witness for C9: two identical two-layer images share every layer,
so the run exits with nothing to do. -/
theorem nothing_to_do_exit_witness :
    earlyDecision [["A", "B"], ["A", "B"]] = EarlyOutcome.nothingToDo := by
  apply nothing_to_do_exit
  refine Or.inr ⟨by decide, ?_⟩
  intro k v h
  have hs : seedAll [["A", "B"], ["A", "B"]] = [("B", 1), ("A", 1)] := by decide
  rw [hs] at h
  obtain ⟨p, hp, hv⟩ := lookupL_value_mem _ k v h
  rcases List.mem_cons.mp hp with rfl | hp2
  · omega
  · rcases List.mem_cons.mp hp2 with rfl | hp3
    · omega
    · cases hp3

/-- Claim C10.  The empty-layer skip loop indexes the history list
without a bounds check; under the precondition that the image's count
of non-empty history entries equals its layer-list length, every
index it reads is in bounds (the loop finds a non-empty entry before
the end of the list), so the whole fusion loop runs without the
out-of-bounds fault and terminates. -/
theorem history_skip_in_bounds (m : List (String × Nat)) (img : MeltImage)
    (disk : List String) (h : countNonEmpty img.history = img.layers.length) :
    (runImage m img disk).isSome = true := by
  have h2 := runImage_isSome m img disk h
  simpa using h2

/-- Witness for C10 on the four-layer image with an interleaved
empty-layer entry. -/
theorem history_skip_in_bounds_witness :
    (runImage mFour imgFour diskFour).isSome = true :=
  history_skip_in_bounds mFour imgFour diskFour (by decide)
